import Mathlib

/-!
Verification of the generic branch-and-bound depth-first search (`dfs` in
`src/utils.rs`) and its two hardest client state spaces: the dual-agent
valve-opening search of `src/day16.rs` and the geode-robot construction
search of `src/day19.rs`.

The Rust code is embedded shallowly:
* `dfs` is a `while let Some(node) = stack.pop()` loop; it is modelled by the
  fuel-indexed `dfsAux`, which returns `none` when the fuel is exhausted
  before the stack empties (the hypotheses "the run terminates" of the
  theorems below correspond to the spec's finite-depth requirement).
* The stack (`Vec`, pushed/popped at the end) is a `List` whose head is the
  top; `stack.extend(successors)` therefore prepends the reversed successor
  list.  The `FxHashSet` visited set is a `List` queried by membership.
* The scalar type `SC : Ord + LowerBounded` is a `LinearOrder` with an
  `OrderBot`; `SC::min_value()` is `⊥` (for `u64` both are `0`).
-/

set_option linter.unusedSectionVars false
set_option linter.unreachableTactic false
set_option linter.unusedTactic false

section GenericDfs

variable {N SC : Type} [DecidableEq N] [LinearOrder SC] [OrderBot SC]

/-- Shallow embedding of `dfs` from `src/utils.rs` (lines 24-70): the body of
the `while let` loop, indexed by fuel.  Arguments after the closures:
fuel, stack (head = top), visited set, current best score. -/
def dfsAux (succ : N → List N) (score : N → SC) (bps : N → SC)
    (isFinal : N → Bool) : Nat → List N → List N → SC → Option SC
  | _, [], _, best => some best
  | 0, _ :: _, _, _ => none
  | fuel + 1, n :: stack, visited, best =>
    if bps n ≤ best then
      dfsAux succ score bps isFinal fuel stack visited best
    else if n ∈ visited then
      dfsAux succ score bps isFinal fuel stack visited best
    else if isFinal n then
      if best < score n then
        dfsAux succ score bps isFinal fuel stack (n :: visited) (score n)
      else
        dfsAux succ score bps isFinal fuel stack (n :: visited) best
    else
      dfsAux succ score bps isFinal fuel ((succ n).reverse ++ stack) (n :: visited) best

/-- `dfs` with the visited-set membership check (lines 51-53 of
`src/utils.rs`) removed: the variant considered by the spec's
"idempotence of visited-set pruning" property. -/
def dfsAuxNV (succ : N → List N) (score : N → SC) (bps : N → SC)
    (isFinal : N → Bool) : Nat → List N → SC → Option SC
  | _, [], best => some best
  | 0, _ :: _, _ => none
  | fuel + 1, n :: stack, best =>
    if bps n ≤ best then
      dfsAuxNV succ score bps isFinal fuel stack best
    else if isFinal n then
      if best < score n then
        dfsAuxNV succ score bps isFinal fuel stack (score n)
      else
        dfsAuxNV succ score bps isFinal fuel stack best
    else
      dfsAuxNV succ score bps isFinal fuel ((succ n).reverse ++ stack) best

/-- Plain reachability along the successor function. -/
inductive Reach (succ : N → List N) : N → N → Prop
  | refl (n : N) : Reach succ n n
  | step {a b c : N} : b ∈ succ a → Reach succ b c → Reach succ a c

/-- Search reachability: reachability along chains that do not continue past a
terminal node (every node of the chain except possibly the last is
non-final).  This is exactly the part of the graph the search explores,
since `dfs` never expands a node satisfying `is_final`. -/
inductive NFReach (succ : N → List N) (isFinal : N → Bool) : N → N → Prop
  | refl (n : N) : NFReach succ isFinal n n
  | step {a b c : N} : isFinal a = false → b ∈ succ a → NFReach succ isFinal b c →
      NFReach succ isFinal a c

/-- Search reachability along chains avoiding a given visited set: every node
of the chain is outside `V` and every node except possibly the last is
non-final. -/
inductive ReachA (succ : N → List N) (isFinal : N → Bool) (V : List N) : N → N → Prop
  | refl (n : N) (h : n ∉ V) : ReachA succ isFinal V n n
  | step {a b c : N} : a ∉ V → isFinal a = false → b ∈ succ a →
      ReachA succ isFinal V b c → ReachA succ isFinal V a c

namespace NFReach

theorem toReach {succ : N → List N} {F : N → Bool} {a b : N}
    (h : NFReach succ F a b) : Reach succ a b := by
  induction h with
  | refl n => exact Reach.refl n
  | step _ hmem _ ih => exact Reach.step hmem ih

theorem snoc {succ : N → List N} {F : N → Bool} {a b c : N}
    (h : NFReach succ F a b) (hb : F b = false) (hc : c ∈ succ b) :
    NFReach succ F a c := by
  induction h with
  | refl n => exact NFReach.step hb hc (NFReach.refl c)
  | step hf hmem _ ih => exact NFReach.step hf hmem (ih hb hc)

theorem of_final {succ : N → List N} {F : N → Bool} {a b : N}
    (h : NFReach succ F a b) (ha : F a = true) : b = a := by
  cases h with
  | refl _ => rfl
  | step hf _ _ => rw [ha] at hf; cases hf

theorem of_ne {succ : N → List N} {F : N → Bool} {a b : N}
    (h : NFReach succ F a b) (hne : b ≠ a) :
    ∃ s ∈ succ a, NFReach succ F s b := by
  cases h with
  | refl _ => exact absurd rfl hne
  | step _ hmem htail => exact ⟨_, hmem, htail⟩

theorem mono_final {succ : N → List N} {F G : N → Bool} {a b : N}
    (hFG : ∀ x, G x = true → F x = true) (h : NFReach succ F a b) :
    NFReach succ G a b := by
  induction h with
  | refl n => exact NFReach.refl n
  | step hf hmem _ ih =>
    refine NFReach.step ?_ hmem ih
    cases hG : G _ with
    | false => rfl
    | true => rw [hFG _ hG] at hf; cases hf

theorem toReachA_nil {succ : N → List N} {F : N → Bool} {a b : N}
    (h : NFReach succ F a b) : ReachA succ F [] a b := by
  induction h with
  | refl n => exact ReachA.refl n (List.not_mem_nil n)
  | step hf hmem _ ih => exact ReachA.step (List.not_mem_nil _) hf hmem ih

end NFReach

namespace ReachA

theorem head_not_mem {succ : N → List N} {F : N → Bool} {V : List N} {a b : N}
    (h : ReachA succ F V a b) : a ∉ V := by
  cases h with
  | refl _ h => exact h
  | step h _ _ _ => exact h

theorem toNFReach {succ : N → List N} {F : N → Bool} {V : List N} {a b : N}
    (h : ReachA succ F V a b) : NFReach succ F a b := by
  induction h with
  | refl n _ => exact NFReach.refl n
  | step _ hf hmem _ ih => exact NFReach.step hf hmem ih

/-- Extending the avoided set by a node `n` distinct from the target: either
the chain already avoids `n`, or a tail of it starts at a successor of `n`
and avoids `n`. -/
theorem insert_avoid {succ : N → List N} {F : N → Bool} {V : List N} {n a b : N}
    (h : ReachA succ F V a b) (hne : b ≠ n) :
    ReachA succ F (n :: V) a b ∨ ∃ s ∈ succ n, ReachA succ F (n :: V) s b := by
  induction h with
  | refl m hm =>
    left
    exact ReachA.refl m (by simp [hm, hne])
  | step hV hf hmem htail ih =>
    rename_i x y z
    rcases ih hne with ih | ih
    · by_cases hxn : x = n
      · subst hxn
        exact Or.inr ⟨_, hmem, ih⟩
      · exact Or.inl (ReachA.step (by simp [hV, hxn]) hf hmem ih)
    · exact Or.inr ih

/-- Extending the avoided set by a final node `n`: either the target is `n`
itself, or the chain avoids `n`. -/
theorem insert_final {succ : N → List N} {F : N → Bool} {V : List N} {n a b : N}
    (hn : F n = true) (h : ReachA succ F V a b) :
    b = n ∨ ReachA succ F (n :: V) a b := by
  induction h with
  | refl m hm =>
    by_cases hmn : m = n
    · exact Or.inl hmn
    · exact Or.inr (ReachA.refl m (by simp [hm, hmn]))
  | step hV hf hmem htail ih =>
    rename_i x y z
    rcases ih with ih | ih
    · exact Or.inl ih
    · refine Or.inr (ReachA.step ?_ hf hmem ih)
      have hxn : x ≠ n := fun he => by rw [he, hn] at hf; cases hf
      simp [hV, hxn]

end ReachA

theorem dfsAux_nil (succ : N → List N) (score bps : N → SC) (F : N → Bool)
    (fuel : ℕ) (V : List N) (b : SC) :
    dfsAux succ score bps F fuel [] V b = some b := by
  cases fuel <;> rfl

theorem dfsAuxNV_nil (succ : N → List N) (score bps : N → SC) (F : N → Bool)
    (fuel : ℕ) (b : SC) :
    dfsAuxNV succ score bps F fuel [] b = some b := by
  cases fuel <;> rfl

/-- The loop invariant of `dfs`: if the bound function is admissible on the
search-reachable part of the graph, then on termination the returned score is
an upper bound of all search-reachable terminal scores, and is either `⊥` or
itself the score of a search-reachable terminal state. -/
theorem dfsAux_invariant (succ : N → List N) (score bps : N → SC) (F : N → Bool)
    (start : N)
    (hadm : ∀ n, NFReach succ F start n → ∀ t, NFReach succ F n t → F t = true →
      score t ≤ bps n) :
    ∀ fuel (L V : List N) (b r : SC),
      dfsAux succ score bps F fuel L V b = some r →
      (∀ m ∈ L, NFReach succ F start m) →
      (b = ⊥ ∨ ∃ t, NFReach succ F start t ∧ F t = true ∧ score t = b) →
      (∀ t, NFReach succ F start t → F t = true →
        score t ≤ b ∨ ∃ m ∈ L, ReachA succ F V m t) →
      (∀ t, NFReach succ F start t → F t = true → score t ≤ r) ∧
      (r = ⊥ ∨ ∃ t, NFReach succ F start t ∧ F t = true ∧ score t = r) := by
  intro fuel
  induction fuel with
  | zero =>
    intro L V b r hrun hL hb hcov
    cases L with
    | nil =>
      rw [dfsAux_nil] at hrun
      have hbr : b = r := Option.some.inj hrun
      subst hbr
      refine ⟨fun t ht hft => ?_, hb⟩
      rcases hcov t ht hft with hle | ⟨m, hm, _⟩
      · exact hle
      · exact absurd hm (List.not_mem_nil m)
    | cons n L' => simp [dfsAux] at hrun
  | succ fuel ih =>
    intro L V b r hrun hL hb hcov
    cases L with
    | nil =>
      rw [dfsAux_nil] at hrun
      have hbr : b = r := Option.some.inj hrun
      subst hbr
      refine ⟨fun t ht hft => ?_, hb⟩
      rcases hcov t ht hft with hle | ⟨m, hm, _⟩
      · exact hle
      · exact absurd hm (List.not_mem_nil m)
    | cons n L' =>
      simp only [dfsAux] at hrun
      by_cases hprune : bps n ≤ b
      · rw [if_pos hprune] at hrun
        refine ih L' V b r hrun (fun m hm => hL m (List.mem_cons_of_mem _ hm)) hb ?_
        intro t ht hft
        rcases hcov t ht hft with hle | ⟨m, hm, hRA⟩
        · exact Or.inl hle
        · rcases List.mem_cons.mp hm with rfl | hm'
          · have hle' := hadm m (hL m (List.mem_cons_self m L')) t hRA.toNFReach hft
            exact Or.inl (le_trans hle' hprune)
          · exact Or.inr ⟨m, hm', hRA⟩
      · rw [if_neg hprune] at hrun
        by_cases hvis : n ∈ V
        · rw [if_pos hvis] at hrun
          refine ih L' V b r hrun (fun m hm => hL m (List.mem_cons_of_mem _ hm)) hb ?_
          intro t ht hft
          rcases hcov t ht hft with hle | ⟨m, hm, hRA⟩
          · exact Or.inl hle
          · rcases List.mem_cons.mp hm with rfl | hm'
            · exact absurd hvis hRA.head_not_mem
            · exact Or.inr ⟨m, hm', hRA⟩
        · rw [if_neg hvis] at hrun
          by_cases hfin : F n = true
          · rw [if_pos hfin] at hrun
            have hnn : NFReach succ F start n := hL n (List.mem_cons_self n L')
            have hbb : ∀ b' : SC, score n ≤ b' → b ≤ b' →
                (∀ t, NFReach succ F start t → F t = true →
                  score t ≤ b' ∨ ∃ m ∈ L', ReachA succ F (n :: V) m t) := by
              intro b' hsn hbb' t ht hft
              rcases hcov t ht hft with hle | ⟨m, hm, hRA⟩
              · exact Or.inl (le_trans hle hbb')
              · rcases hRA.insert_final hfin with rfl | hRA'
                · exact Or.inl hsn
                · rcases List.mem_cons.mp hm with rfl | hm'
                  · exact absurd (List.mem_cons_self m V) hRA'.head_not_mem
                  · exact Or.inr ⟨m, hm', hRA'⟩
            by_cases himp : b < score n
            · rw [if_pos himp] at hrun
              refine ih L' (n :: V) (score n) r hrun
                (fun m hm => hL m (List.mem_cons_of_mem _ hm))
                (Or.inr ⟨n, hnn, hfin, rfl⟩)
                (hbb (score n) (le_refl _) (le_of_lt himp))
            · rw [if_neg himp] at hrun
              refine ih L' (n :: V) b r hrun
                (fun m hm => hL m (List.mem_cons_of_mem _ hm)) hb
                (hbb b (not_lt.mp himp) (le_refl _))
          · have hfin' : F n = false := by
              cases hF : F n with
              | false => rfl
              | true => exact absurd hF hfin
            rw [if_neg hfin] at hrun
            refine ih ((succ n).reverse ++ L') (n :: V) b r hrun ?_ hb ?_
            · intro m hm
              rcases List.mem_append.mp hm with hm1 | hm2
              · exact (hL n (List.mem_cons_self n L')).snoc hfin'
                  (List.mem_reverse.mp hm1)
              · exact hL m (List.mem_cons_of_mem _ hm2)
            · intro t ht hft
              rcases hcov t ht hft with hle | ⟨m, hm, hRA⟩
              · exact Or.inl hle
              · have htn : t ≠ n := by
                  intro he
                  rw [← he, hft] at hfin'
                  cases hfin'
                rcases hRA.insert_avoid htn with hRA' | ⟨s, hs, hRA'⟩
                · rcases List.mem_cons.mp hm with rfl | hm'
                  · exact absurd (List.mem_cons_self m V) hRA'.head_not_mem
                  · exact Or.inr ⟨m, List.mem_append_right _ hm', hRA'⟩
                · exact Or.inr
                    ⟨s, List.mem_append_left _ (List.mem_reverse.mpr hs), hRA'⟩

/-- Analogue of `dfsAux_invariant` for the variant without the visited set. -/
theorem dfsAuxNV_invariant (succ : N → List N) (score bps : N → SC) (F : N → Bool)
    (start : N)
    (hadm : ∀ n, NFReach succ F start n → ∀ t, NFReach succ F n t → F t = true →
      score t ≤ bps n) :
    ∀ fuel (L : List N) (b r : SC),
      dfsAuxNV succ score bps F fuel L b = some r →
      (∀ m ∈ L, NFReach succ F start m) →
      (b = ⊥ ∨ ∃ t, NFReach succ F start t ∧ F t = true ∧ score t = b) →
      (∀ t, NFReach succ F start t → F t = true →
        score t ≤ b ∨ ∃ m ∈ L, NFReach succ F m t) →
      (∀ t, NFReach succ F start t → F t = true → score t ≤ r) ∧
      (r = ⊥ ∨ ∃ t, NFReach succ F start t ∧ F t = true ∧ score t = r) := by
  intro fuel
  induction fuel with
  | zero =>
    intro L b r hrun hL hb hcov
    cases L with
    | nil =>
      rw [dfsAuxNV_nil] at hrun
      have hbr : b = r := Option.some.inj hrun
      subst hbr
      refine ⟨fun t ht hft => ?_, hb⟩
      rcases hcov t ht hft with hle | ⟨m, hm, _⟩
      · exact hle
      · exact absurd hm (List.not_mem_nil m)
    | cons n L' => simp [dfsAuxNV] at hrun
  | succ fuel ih =>
    intro L b r hrun hL hb hcov
    cases L with
    | nil =>
      rw [dfsAuxNV_nil] at hrun
      have hbr : b = r := Option.some.inj hrun
      subst hbr
      refine ⟨fun t ht hft => ?_, hb⟩
      rcases hcov t ht hft with hle | ⟨m, hm, _⟩
      · exact hle
      · exact absurd hm (List.not_mem_nil m)
    | cons n L' =>
      simp only [dfsAuxNV] at hrun
      by_cases hprune : bps n ≤ b
      · rw [if_pos hprune] at hrun
        refine ih L' b r hrun (fun m hm => hL m (List.mem_cons_of_mem _ hm)) hb ?_
        intro t ht hft
        rcases hcov t ht hft with hle | ⟨m, hm, hNF⟩
        · exact Or.inl hle
        · rcases List.mem_cons.mp hm with rfl | hm'
          · have hle' := hadm m (hL m (List.mem_cons_self m L')) t hNF hft
            exact Or.inl (le_trans hle' hprune)
          · exact Or.inr ⟨m, hm', hNF⟩
      · rw [if_neg hprune] at hrun
        by_cases hfin : F n = true
        · rw [if_pos hfin] at hrun
          have hnn : NFReach succ F start n := hL n (List.mem_cons_self n L')
          have hbb : ∀ b' : SC, score n ≤ b' → b ≤ b' →
              (∀ t, NFReach succ F start t → F t = true →
                score t ≤ b' ∨ ∃ m ∈ L', NFReach succ F m t) := by
            intro b' hsn hbb' t ht hft
            rcases hcov t ht hft with hle | ⟨m, hm, hNF⟩
            · exact Or.inl (le_trans hle hbb')
            · rcases List.mem_cons.mp hm with rfl | hm'
              · have htm : t = m := hNF.of_final hfin
                subst htm
                exact Or.inl hsn
              · exact Or.inr ⟨m, hm', hNF⟩
          by_cases himp : b < score n
          · rw [if_pos himp] at hrun
            exact ih L' (score n) r hrun
              (fun m hm => hL m (List.mem_cons_of_mem _ hm))
              (Or.inr ⟨n, hnn, hfin, rfl⟩)
              (hbb (score n) (le_refl _) (le_of_lt himp))
          · rw [if_neg himp] at hrun
            exact ih L' b r hrun
              (fun m hm => hL m (List.mem_cons_of_mem _ hm)) hb
              (hbb b (not_lt.mp himp) (le_refl _))
        · have hfin' : F n = false := by
            cases hF : F n with
            | false => rfl
            | true => exact absurd hF hfin
          rw [if_neg hfin] at hrun
          refine ih ((succ n).reverse ++ L') b r hrun ?_ hb ?_
          · intro m hm
            rcases List.mem_append.mp hm with hm1 | hm2
            · exact (hL n (List.mem_cons_self n L')).snoc hfin'
                (List.mem_reverse.mp hm1)
            · exact hL m (List.mem_cons_of_mem _ hm2)
          · intro t ht hft
            rcases hcov t ht hft with hle | ⟨m, hm, hNF⟩
            · exact Or.inl hle
            · rcases List.mem_cons.mp hm with rfl | hm'
              · have htm : t ≠ m := by
                  intro he
                  rw [← he, hft] at hfin'
                  cases hfin'
                rcases hNF.of_ne htm with ⟨s, hs, hNF'⟩
                exact Or.inr
                  ⟨s, List.mem_append_left _ (List.mem_reverse.mpr hs), hNF'⟩
              · exact Or.inr ⟨m, List.mem_append_right _ hm', hNF⟩

/-- If no search-reachable node is final, the best score is never updated. -/
theorem dfsAux_no_final (succ : N → List N) (score bps : N → SC) (F : N → Bool)
    (start : N) (hnf : ∀ m, NFReach succ F start m → F m = false) :
    ∀ fuel (L V : List N) (b r : SC),
      dfsAux succ score bps F fuel L V b = some r →
      (∀ m ∈ L, NFReach succ F start m) → r = b := by
  intro fuel
  induction fuel with
  | zero =>
    intro L V b r hrun hL
    cases L with
    | nil => rw [dfsAux_nil] at hrun; exact (Option.some.inj hrun).symm
    | cons n L' => simp [dfsAux] at hrun
  | succ fuel ih =>
    intro L V b r hrun hL
    cases L with
    | nil => rw [dfsAux_nil] at hrun; exact (Option.some.inj hrun).symm
    | cons n L' =>
      simp only [dfsAux] at hrun
      have hfn : F n = false := hnf n (hL n (List.mem_cons_self n L'))
      by_cases hprune : bps n ≤ b
      · rw [if_pos hprune] at hrun
        exact ih L' V b r hrun (fun m hm => hL m (List.mem_cons_of_mem _ hm))
      · rw [if_neg hprune] at hrun
        by_cases hvis : n ∈ V
        · rw [if_pos hvis] at hrun
          exact ih L' V b r hrun (fun m hm => hL m (List.mem_cons_of_mem _ hm))
        · rw [if_neg hvis, if_neg (by simp [hfn])] at hrun
          refine ih _ _ b r hrun ?_
          intro m hm
          rcases List.mem_append.mp hm with hm1 | hm2
          · exact (hL n (List.mem_cons_self n L')).snoc hfn (List.mem_reverse.mp hm1)
          · exact hL m (List.mem_cons_of_mem _ hm2)

/-- `dfsAux_no_final` for the variant without the visited set. -/
theorem dfsAuxNV_no_final (succ : N → List N) (score bps : N → SC) (F : N → Bool)
    (start : N) (hnf : ∀ m, NFReach succ F start m → F m = false) :
    ∀ fuel (L : List N) (b r : SC),
      dfsAuxNV succ score bps F fuel L b = some r →
      (∀ m ∈ L, NFReach succ F start m) → r = b := by
  intro fuel
  induction fuel with
  | zero =>
    intro L b r hrun hL
    cases L with
    | nil => rw [dfsAuxNV_nil] at hrun; exact (Option.some.inj hrun).symm
    | cons n L' => simp [dfsAuxNV] at hrun
  | succ fuel ih =>
    intro L b r hrun hL
    cases L with
    | nil => rw [dfsAuxNV_nil] at hrun; exact (Option.some.inj hrun).symm
    | cons n L' =>
      simp only [dfsAuxNV] at hrun
      have hfn : F n = false := hnf n (hL n (List.mem_cons_self n L'))
      by_cases hprune : bps n ≤ b
      · rw [if_pos hprune] at hrun
        exact ih L' b r hrun (fun m hm => hL m (List.mem_cons_of_mem _ hm))
      · rw [if_neg hprune, if_neg (by simp [hfn])] at hrun
        refine ih _ b r hrun ?_
        intro m hm
        rcases List.mem_append.mp hm with hm1 | hm2
        · exact (hL n (List.mem_cons_self n L')).snoc hfn (List.mem_reverse.mp hm1)
        · exact hL m (List.mem_cons_of_mem _ hm2)

/-- Full-run corollary of the invariant: a terminating run from the initial
configuration returns the greatest search-reachable terminal score. -/
theorem dfsAux_isGreatest (succ : N → List N) (score bps : N → SC) (F : N → Bool)
    (start : N) (fuel : ℕ) (r : SC)
    (hrun : dfsAux succ score bps F fuel [start] [] ⊥ = some r)
    (hadm : ∀ n, NFReach succ F start n → ∀ t, NFReach succ F n t → F t = true →
      score t ≤ bps n)
    (hterm : ∃ t, NFReach succ F start t ∧ F t = true) :
    IsGreatest {x | ∃ t, NFReach succ F start t ∧ F t = true ∧ score t = x} r := by
  obtain ⟨hub, hwit⟩ := dfsAux_invariant succ score bps F start hadm fuel [start] [] ⊥ r
    hrun
    (fun m hm => by rw [List.mem_singleton.mp hm]; exact NFReach.refl start)
    (Or.inl rfl)
    (fun t ht hft => Or.inr ⟨start, List.mem_singleton_self start, ht.toReachA_nil⟩)
  constructor
  · rcases hwit with hbot | ⟨t, ht, hft, hsc⟩
    · obtain ⟨t0, ht0, hft0⟩ := hterm
      have h0 : score t0 ≤ r := hub t0 ht0 hft0
      rw [hbot] at h0 ⊢
      exact ⟨t0, ht0, hft0, le_bot_iff.mp h0⟩
    · exact ⟨t, ht, hft, hsc⟩
  · rintro x ⟨t, ht, hft, rfl⟩
    exact hub t ht hft

/-- Full-run corollary of the invariant for the variant without the visited
set. -/
theorem dfsAuxNV_isGreatest (succ : N → List N) (score bps : N → SC) (F : N → Bool)
    (start : N) (fuel : ℕ) (r : SC)
    (hrun : dfsAuxNV succ score bps F fuel [start] ⊥ = some r)
    (hadm : ∀ n, NFReach succ F start n → ∀ t, NFReach succ F n t → F t = true →
      score t ≤ bps n)
    (hterm : ∃ t, NFReach succ F start t ∧ F t = true) :
    IsGreatest {x | ∃ t, NFReach succ F start t ∧ F t = true ∧ score t = x} r := by
  obtain ⟨hub, hwit⟩ := dfsAuxNV_invariant succ score bps F start hadm fuel [start] ⊥ r
    hrun
    (fun m hm => by rw [List.mem_singleton.mp hm]; exact NFReach.refl start)
    (Or.inl rfl)
    (fun t ht hft => Or.inr ⟨start, List.mem_singleton_self start, ht⟩)
  constructor
  · rcases hwit with hbot | ⟨t, ht, hft, hsc⟩
    · obtain ⟨t0, ht0, hft0⟩ := hterm
      have h0 : score t0 ≤ r := hub t0 ht0 hft0
      rw [hbot] at h0 ⊢
      exact ⟨t0, ht0, hft0, le_bot_iff.mp h0⟩
    · exact ⟨t, ht, hft, hsc⟩
  · rintro x ⟨t, ht, hft, rfl⟩
    exact hub t ht hft

end GenericDfs

/-! Concrete instance used by the counterexample to C1 and by several
witnesses: the chain `0 → 1 → 2` where `1` and `2` are terminal with scores
`1` and `5`, all chains are finite, and the constant bound `5` dominates
every score. -/

def dfsCexSucc (n : ℕ) : List ℕ :=
  if n = 0 then [1] else if n = 1 then [2] else []

def dfsCexScore (n : ℕ) : ℕ :=
  if n = 1 then 1 else if n = 2 then 5 else 0

def dfsCexBps (_ : ℕ) : ℕ := 5

def dfsCexFinal (n : ℕ) : Bool :=
  n = 1 || n = 2

theorem dfsCexScore_le (t : ℕ) : dfsCexScore t ≤ 5 := by
  simp only [dfsCexScore]
  split
  · omega
  · split <;> omega

/-- **C1, counterexample.** At the concrete input `dfsCex*` every hypothesis
of the claim holds — the run terminates (all successor chains are finite) and
the bound is admissible in the claim's plain-reachability sense, since it
dominates every score — yet `dfs` returns `1`, which is not the maximum score
over the plainly reachable terminal states: the terminal `2` with score `5`
is reachable from `0` (through the terminal `1`), but `dfs` never expands a
terminal state, so `1` is not even an upper bound of the reachable terminal
scores. -/
theorem dfs_plain_reachable_max_cex :
    dfsAux dfsCexSucc dfsCexScore dfsCexBps dfsCexFinal 10 [0] [] ⊥ = some 1 ∧
    (∀ n t : ℕ, dfsCexScore t ≤ dfsCexBps n) ∧
    ¬ IsGreatest {x | ∃ t, Reach dfsCexSucc 0 t ∧ dfsCexFinal t = true ∧
        dfsCexScore t = x} 1 := by
  refine ⟨by decide, fun n t => dfsCexScore_le t, ?_⟩
  rintro ⟨-, hub⟩
  have h2 : (5 : ℕ) ∈ {x | ∃ t, Reach dfsCexSucc 0 t ∧ dfsCexFinal t = true ∧
      dfsCexScore t = x} := by
    refine ⟨2, ?_, by decide, by decide⟩
    have s1 : (1 : ℕ) ∈ dfsCexSucc 0 := by decide
    have s2 : (2 : ℕ) ∈ dfsCexSucc 1 := by decide
    exact Reach.step s1 (Reach.step s2 (Reach.refl 2))
  exact absurd (hub h2) (by decide)

/-- **C1 (amended).** For every initial state, successor, score, bound and
terminal functions, if the bound function is admissible with respect to
search reachability (chains that do not continue past terminal states), the
run terminates, and at least one terminal state is search-reachable, then
`dfs` returns the true maximum score over all search-reachable terminal
states. -/
theorem dfs_returns_search_reachable_max {N SC : Type} [DecidableEq N]
    [LinearOrder SC] [OrderBot SC]
    (succ : N → List N) (score bps : N → SC) (F : N → Bool)
    (start : N) (fuel : ℕ) (r : SC)
    (hrun : dfsAux succ score bps F fuel [start] [] ⊥ = some r)
    (hadm : ∀ n, NFReach succ F start n → ∀ t, NFReach succ F n t → F t = true →
      score t ≤ bps n)
    (hterm : ∃ t, NFReach succ F start t ∧ F t = true) :
    IsGreatest {x | ∃ t, NFReach succ F start t ∧ F t = true ∧ score t = x} r :=
  dfsAux_isGreatest succ score bps F start fuel r hrun hadm hterm

/-- Witness for C1 (amended) at the concrete instance `dfsCex*`: the returned
value `1` is the greatest search-reachable terminal score (the terminal `2`
is hidden behind the terminal `1` and therefore not search-reachable). -/
theorem dfs_returns_search_reachable_max_witness :
    IsGreatest {x | ∃ t, NFReach dfsCexSucc dfsCexFinal 0 t ∧
      dfsCexFinal t = true ∧ dfsCexScore t = x} 1 :=
  dfs_returns_search_reachable_max dfsCexSucc dfsCexScore dfsCexBps dfsCexFinal
    0 10 1 (by decide)
    (fun n _ t _ _ => dfsCexScore_le t)
    ⟨1, NFReach.step (by decide) (by decide) (NFReach.refl 1), by decide⟩

/-- **C4.** If no terminal state is reachable from the initial state, a
terminating run of `dfs` returns the scalar minimum `⊥` (`SC::min_value()`),
not an error. -/
theorem dfs_no_terminal_returns_sentinel {N SC : Type} [DecidableEq N]
    [LinearOrder SC] [OrderBot SC]
    (succ : N → List N) (score bps : N → SC) (F : N → Bool)
    (start : N) (fuel : ℕ) (r : SC)
    (hrun : dfsAux succ score bps F fuel [start] [] ⊥ = some r)
    (hnone : ∀ t, Reach succ start t → F t = false) : r = ⊥ :=
  dfsAux_no_final succ score bps F start (fun m hm => hnone m hm.toReach)
    fuel [start] [] ⊥ r hrun
    (fun m hm => by rw [List.mem_singleton.mp hm]; exact NFReach.refl start)

/-- Witness for C4: a one-node graph with no terminal states; the run returns
`0 = ⊥`, the `u64` minimum. -/
theorem dfs_no_terminal_returns_sentinel_witness : (0 : ℕ) = ⊥ :=
  dfs_no_terminal_returns_sentinel (fun _ => []) (fun _ => 0) (fun _ => 1)
    (fun _ => false) 0 2 0 (by decide) (fun t _ => rfl)

/-- **C5.** For a fixed input whose bound function is admissible on the
search-reachable part of the graph, a terminating run of `dfs` with the
visited-set membership check removed returns the same answer as a
terminating run of `dfs` with the check present. -/
theorem dfs_visited_check_idempotent {N SC : Type} [DecidableEq N]
    [LinearOrder SC] [OrderBot SC]
    (succ : N → List N) (score bps : N → SC) (F : N → Bool)
    (start : N) (fuel1 fuel2 : ℕ) (r1 r2 : SC)
    (hadm : ∀ n, NFReach succ F start n → ∀ t, NFReach succ F n t → F t = true →
      score t ≤ bps n)
    (h1 : dfsAux succ score bps F fuel1 [start] [] ⊥ = some r1)
    (h2 : dfsAuxNV succ score bps F fuel2 [start] ⊥ = some r2) : r1 = r2 := by
  by_cases hterm : ∃ t, NFReach succ F start t ∧ F t = true
  · exact IsGreatest.unique
      (dfsAux_isGreatest succ score bps F start fuel1 r1 h1 hadm hterm)
      (dfsAuxNV_isGreatest succ score bps F start fuel2 r2 h2 hadm hterm)
  · have hnf : ∀ m, NFReach succ F start m → F m = false := by
      intro m hm
      cases hF : F m with
      | false => rfl
      | true => exact absurd ⟨m, hm, hF⟩ hterm
    have e1 := dfsAux_no_final succ score bps F start hnf fuel1 [start] [] ⊥ r1 h1
      (fun m hm => by rw [List.mem_singleton.mp hm]; exact NFReach.refl start)
    have e2 := dfsAuxNV_no_final succ score bps F start hnf fuel2 [start] ⊥ r2 h2
      (fun m hm => by rw [List.mem_singleton.mp hm]; exact NFReach.refl start)
    rw [e1, e2]

/-- Witness for C5 at the concrete instance `dfsCex*`: both variants
return `1`. -/
theorem dfs_visited_check_idempotent_witness : (1 : ℕ) = 1 :=
  dfs_visited_check_idempotent dfsCexSucc dfsCexScore dfsCexBps dfsCexFinal
    0 10 10 1 1 (fun n _ t _ _ => dfsCexScore_le t) (by decide) (by decide)

/-- **C7.** When the node popped by `dfs` passes the bound check and the
visited check and satisfies `is_final`, the iteration scores it, replaces the
best score only when the new score strictly exceeds it, and pushes none of
the node's successors: the loop continues on the remaining stack unchanged. -/
theorem dfs_final_node_step {N SC : Type} [DecidableEq N]
    [LinearOrder SC] [OrderBot SC]
    (succ : N → List N) (score bps : N → SC) (F : N → Bool)
    (n : N) (stack visited : List N) (b : SC) (fuel : ℕ)
    (hprune : ¬ bps n ≤ b) (hvis : n ∉ visited) (hfin : F n = true) :
    dfsAux succ score bps F (fuel + 1) (n :: stack) visited b
      = dfsAux succ score bps F fuel stack (n :: visited)
          (if b < score n then score n else b) := by
  simp only [dfsAux]
  rw [if_neg hprune, if_neg hvis, if_pos hfin]
  by_cases himp : b < score n
  · rw [if_pos himp, if_pos himp]
  · rw [if_neg himp, if_neg himp]

/-- Witness for C7 at the concrete instance `dfsCex*`, popping the final node
`1` with a nonempty successor list. -/
theorem dfs_final_node_step_witness :
    dfsAux dfsCexSucc dfsCexScore dfsCexBps dfsCexFinal 1 [1] [] 0
      = dfsAux dfsCexSucc dfsCexScore dfsCexBps dfsCexFinal 0 [] [1]
          (if 0 < dfsCexScore 1 then dfsCexScore 1 else 0) :=
  dfs_final_node_step dfsCexSucc dfsCexScore dfsCexBps dfsCexFinal 1 [] [] 0 0
    (by decide) (by decide) (by decide)

/-!
Embedding of the geode-robot construction state space of `src/day19.rs`.
`u64` counters are modelled as `ℕ`; `Vec` as `List`.
-/

namespace Day19

/-- `Resource` (src/day19.rs lines 12-18). -/
inductive Resource
  | Ore
  | Clay
  | Obsidian
  | Geode
deriving DecidableEq

/-- `Robot` (lines 33-37): its cost list and the resource it produces. -/
structure Robot where
  costs : List (Resource × ℕ)
  produces : Resource
deriving DecidableEq

/-- `Blueprint` (lines 55-59). -/
structure Blueprint where
  id : ℕ
  robots : List Robot
deriving DecidableEq

/-- `Storage` (lines 78-84). -/
structure Storage where
  ore : ℕ
  clay : ℕ
  obsidian : ℕ
  geode : ℕ
deriving DecidableEq

/-- `Storage::default()`: all counters zero. -/
def Storage.zero : Storage := ⟨0, 0, 0, 0⟩

/-- `Storage::add_resource` (lines 87-102). -/
def Storage.add_resource (s : Storage) (r : Resource) (amount : ℕ) : Storage :=
  match r with
  | .Ore => { s with ore := s.ore + amount }
  | .Clay => { s with clay := s.clay + amount }
  | .Obsidian => { s with obsidian := s.obsidian + amount }
  | .Geode => { s with geode := s.geode + amount }

/-- `Storage::resource` (lines 104-111). -/
def Storage.resource (s : Storage) (r : Resource) : ℕ :=
  match r with
  | .Ore => s.ore
  | .Clay => s.clay
  | .Obsidian => s.obsidian
  | .Geode => s.geode

/-- `Storage::remove_resource` (lines 113-128).  The `u64` subtraction is
modelled by truncated `ℕ` subtraction; whether a run of subtractions stays in
bounds (no `u64` underflow) is recorded separately by `removeAllOk`. -/
def Storage.remove_resource (s : Storage) (r : Resource) (amount : ℕ) : Storage :=
  match r with
  | .Ore => { s with ore := s.ore - amount }
  | .Clay => { s with clay := s.clay - amount }
  | .Obsidian => { s with obsidian := s.obsidian - amount }
  | .Geode => { s with geode := s.geode - amount }

/-- `AddAssign for Storage` (lines 131-138). -/
def Storage.add (s rhs : Storage) : Storage :=
  ⟨s.ore + rhs.ore, s.clay + rhs.clay, s.obsidian + rhs.obsidian, s.geode + rhs.geode⟩

/-- `Simulator` (lines 140-148).  The derived `Eq`/`Hash` of the source
ignore the `blueprint` reference field, so the blueprint is modelled as an
explicit parameter of the operations that use it rather than as a field:
equality of two simulators is equality of time, storage and production,
exactly as in the source. -/
structure Simulator where
  time : ℕ
  storage : Storage
  production : Storage
deriving DecidableEq

/-- `Simulator::new` (lines 151-161): time 0, empty storage, one ore robot. -/
def Simulator.new : Simulator :=
  ⟨0, Storage.zero, ⟨1, 0, 0, 0⟩⟩

/-- `Simulator::next` (lines 192-197): advance one tick and accrue the
production into storage. -/
def Simulator.next (s : Simulator) : Simulator :=
  ⟨s.time + 1, s.storage.add s.production, s.production⟩

/-- `Simulator::next_with_built_robot` (lines 175-190): if every cost entry
is affordable from the current storage, advance one tick, pay the costs and
add one unit of production of the built robot's resource; otherwise `None`. -/
def Simulator.next_with_built_robot (s : Simulator) (robot : Robot) :
    Option Simulator :=
  if robot.costs.all (fun rc => decide (rc.2 ≤ s.storage.resource rc.1)) then
    some ⟨s.next.time,
      robot.costs.foldl (fun st rc => st.remove_resource rc.1 rc.2) s.next.storage,
      s.next.production.add_resource robot.produces 1⟩
  else
    none

/-- `Simulator::successors` (lines 163-173): wait, or build any affordable
robot. -/
def Simulator.successors (bp : Blueprint) (s : Simulator) : List Simulator :=
  s.next :: bp.robots.filterMap s.next_with_built_robot

/-- `Simulator::score` (lines 199-201). -/
def Simulator.score (s : Simulator) : ℕ := s.storage.geode

/-- The loop of `Simulator::best_possible_score` (lines 203-213): remaining
iterations, then the loop variables `score` and `production`. -/
def bpsLoop : ℕ → ℕ → ℕ → ℕ
  | 0, score, _ => score
  | k + 1, score, production => bpsLoop k (score + production) (production + 1)

/-- `Simulator::best_possible_score` (lines 203-213): the final geode count
obtained if an extra geode robot were added free of cost on every remaining
tick. -/
def Simulator.best_possible_score (s : Simulator) (max_time : ℕ) : ℕ :=
  bpsLoop (max_time - s.time) s.score s.production.geode

/-- Whether a sequence of `remove_resource` calls starting from `st` stays in
bounds: each subtracted amount is at most the quantity stored at the moment
of that call.  A `false` step is exactly a `u64` underflow in the source. -/
def removeAllOk (st : Storage) : List (Resource × ℕ) → Bool
  | [] => true
  | rc :: rest =>
    decide (rc.2 ≤ st.resource rc.1) && removeAllOk (st.remove_resource rc.1 rc.2) rest

theorem bpsLoop_succ (k sc p : ℕ) : bpsLoop (k + 1) sc p = bpsLoop k (sc + p) (p + 1) :=
  rfl

theorem bpsLoop_mono (k : ℕ) : ∀ {sc sc' p p' : ℕ}, sc ≤ sc' → p ≤ p' →
    bpsLoop k sc p ≤ bpsLoop k sc' p' := by
  induction k with
  | zero => intro sc sc' p p' hs _; exact hs
  | succ k ih => intro sc sc' p p' hs hp; exact ih (by omega) (by omega)

theorem foldl_remove_geode_le (costs : List (Resource × ℕ)) :
    ∀ st : Storage,
      (costs.foldl (fun st rc => st.remove_resource rc.1 rc.2) st).geode ≤ st.geode := by
  induction costs with
  | nil => intro st; exact le_refl _
  | cons rc rest ih =>
    intro st
    refine le_trans (ih _) ?_
    rcases rc with ⟨r, c⟩
    cases r <;> simp [Storage.remove_resource] <;> omega

theorem add_resource_geode_le (p : Storage) (r : Resource) :
    (p.add_resource r 1).geode ≤ p.geode + 1 := by
  cases r <;> simp [Storage.add_resource]

/-- Every successor advances time by exactly one tick. -/
theorem successors_time (bp : Blueprint) (s s' : Simulator)
    (h : s' ∈ Simulator.successors bp s) : s'.time = s.time + 1 := by
  rcases List.mem_cons.mp h with rfl | h
  · rfl
  · obtain ⟨robot, _, hr⟩ := List.mem_filterMap.mp h
    unfold Simulator.next_with_built_robot at hr
    split at hr
    · injection hr with hr
      rw [← hr]
      rfl
    · cases hr

/-- Geode bookkeeping along one transition: storage geodes grow by at most
the current production and geode production grows by at most one. -/
theorem successors_geode (bp : Blueprint) (s s' : Simulator)
    (h : s' ∈ Simulator.successors bp s) :
    s'.storage.geode ≤ s.storage.geode + s.production.geode ∧
    s'.production.geode ≤ s.production.geode + 1 := by
  rcases List.mem_cons.mp h with rfl | h
  · constructor
    · simp [Simulator.next, Storage.add]
    · simp [Simulator.next]
  · obtain ⟨robot, _, hr⟩ := List.mem_filterMap.mp h
    unfold Simulator.next_with_built_robot at hr
    split at hr
    · injection hr with hr
      rw [← hr]
      constructor
      · exact foldl_remove_geode_le robot.costs _
      · exact add_resource_geode_le _ _
    · cases hr

/-- The optimistic bound does not increase along a transition taken before
the horizon. -/
theorem best_possible_score_succ_le (bp : Blueprint) (h : ℕ) (s s' : Simulator)
    (hmem : s' ∈ Simulator.successors bp s) (ht : s.time < h) :
    s'.best_possible_score h ≤ s.best_possible_score h := by
  obtain ⟨hg, hp⟩ := successors_geode bp s s' hmem
  have hts : s'.time = s.time + 1 := successors_time bp s s' hmem
  unfold Simulator.best_possible_score
  rw [hts]
  have hk : h - s.time = (h - (s.time + 1)) + 1 := by omega
  rw [hk, bpsLoop_succ]
  exact bpsLoop_mono _ (by simpa [Simulator.score] using hg) hp

/-- Admissibility of `best_possible_score` on the search-reachable part of
the state space: along chains whose states before the last are all strictly
before the horizon, the bound at the start dominates the final score. -/
theorem day19_adm (bp : Blueprint) (h : ℕ) (s t : Simulator)
    (hreach : NFReach (Simulator.successors bp) (fun x => decide (h ≤ x.time)) s t) :
    h ≤ t.time → Simulator.score t ≤ Simulator.best_possible_score s h := by
  induction hreach with
  | refl n =>
    intro ht
    unfold Simulator.best_possible_score
    rw [Nat.sub_eq_zero_of_le ht]
    exact le_refl _
  | step hf hmem htail ih =>
    intro ht
    rename_i a b c
    have hta : a.time < h := by
      have := of_decide_eq_false hf
      omega
    exact le_trans (ih ht) (best_possible_score_succ_le bp h a b hmem hta)

/-- Waiting until the horizon: from any search-reachable state one reaches a
terminal state without decreasing the score, by repeatedly taking the `next`
(wait) transition. -/
theorem day19_wait_chain (bp : Blueprint) (h : ℕ) :
    ∀ (k : ℕ) (t : Simulator),
      NFReach (Simulator.successors bp) (fun x => decide (h ≤ x.time)) Simulator.new t →
      h ≤ t.time + k →
      ∃ t', NFReach (Simulator.successors bp) (fun x => decide (h ≤ x.time))
          Simulator.new t' ∧
        decide (h ≤ t'.time) = true ∧ Simulator.score t ≤ Simulator.score t' := by
  intro k
  induction k with
  | zero =>
    intro t ht hle
    exact ⟨t, ht, by simpa using hle, le_refl _⟩
  | succ k ih =>
    intro t ht hle
    by_cases hft : h ≤ t.time
    · exact ⟨t, ht, by simpa using hft, le_refl _⟩
    · have hnext : Simulator.next t ∈ Simulator.successors bp t :=
        List.mem_cons_self _ _
      have ht' := ht.snoc (by simpa using hft) hnext
      have hle' : h ≤ (Simulator.next t).time + k := by
        simp only [Simulator.next]
        omega
      obtain ⟨t', h1, h2, h3⟩ := ih (Simulator.next t) ht' hle'
      refine ⟨t', h1, h2, le_trans ?_ h3⟩
      simp only [Simulator.score, Simulator.next, Storage.add]
      omega

/-- A one-robot blueprint (a geode robot costing 1 ore) used as a concrete
instance by several counterexamples and witnesses. -/
def day19WitnessBp : Blueprint := ⟨1, [⟨[(Resource.Ore, 1)], Resource.Geode⟩]⟩

/-- The state reached after one wait tick and then building the geode robot:
time 2, one ore stored, producing one ore and one geode per tick. -/
def day19CexS : Simulator := ⟨2, ⟨1, 0, 0, 0⟩, ⟨1, 0, 0, 1⟩⟩

/-- The successor of `day19CexS` after one further wait tick. -/
def day19CexT : Simulator := ⟨3, ⟨2, 0, 0, 1⟩, ⟨1, 0, 0, 1⟩⟩

/-- **C3, counterexample.** With horizon `max_time = 2`, the state
`day19CexS` is reachable from `Simulator::new` via `successors` and its
successor `day19CexT` has `time = 3 ≥ max_time`, yet
`score(day19CexT) = 1 > 0 = best_possible_score(day19CexS, 2)`: the bound is
not admissible for states reached by chains that continue past the horizon
(here `day19CexS` itself already has `time = 2`). -/
theorem best_possible_score_plain_cex :
    Simulator.next Simulator.new ∈
      Simulator.successors day19WitnessBp Simulator.new ∧
    day19CexS ∈ Simulator.successors day19WitnessBp (Simulator.next Simulator.new) ∧
    day19CexT ∈ Simulator.successors day19WitnessBp day19CexS ∧
    2 ≤ day19CexT.time ∧
    ¬ Simulator.score day19CexT ≤ Simulator.best_possible_score day19CexS 2 := by
  decide

/-- **C3 (amended).** `best_possible_score` is admissible on the
search-reachable part of the state space: for every state `s` and every
state `t` reached from `s` by a successor chain in which every state except
possibly `t` has `time < max_time`, if `t.time ≥ max_time` then
`score t ≤ best_possible_score s max_time`. -/
theorem best_possible_score_admissible (bp : Blueprint) (max_time : ℕ)
    (s t : Simulator)
    (hreach : NFReach (Simulator.successors bp)
      (fun x => decide (max_time ≤ x.time)) s t)
    (ht : max_time ≤ t.time) :
    Simulator.score t ≤ Simulator.best_possible_score s max_time :=
  day19_adm bp max_time s t hreach ht

/-- Witness for C3 (amended): two wait ticks from the initial state reach the
horizon 2, and the final score is dominated by the initial bound. -/
theorem best_possible_score_admissible_witness :
    Simulator.score (Simulator.next (Simulator.next Simulator.new)) ≤
      Simulator.best_possible_score Simulator.new 2 :=
  best_possible_score_admissible day19WitnessBp 2 _ _
    (NFReach.step (by decide) (List.mem_cons_self _ _)
      (NFReach.step (by decide) (List.mem_cons_self _ _)
        (NFReach.refl _)))
    (by decide)

/-- **C6.** For every blueprint, increasing the horizon of the geode search
(the `dfs` call of `score_blueprints`, lines 216-236 of src/day19.rs) never
decreases the best geode count: if both runs terminate and `h1 ≤ h2`, the
answer for `h1` is at most the answer for `h2`. -/
theorem score_blueprints_horizon_monotone (bp : Blueprint)
    (h1 h2 fuel1 fuel2 r1 r2 : ℕ) (hh : h1 ≤ h2)
    (hrun1 : dfsAux (Simulator.successors bp) Simulator.score
      (fun s => s.best_possible_score h1) (fun s => decide (h1 ≤ s.time))
      fuel1 [Simulator.new] [] ⊥ = some r1)
    (hrun2 : dfsAux (Simulator.successors bp) Simulator.score
      (fun s => s.best_possible_score h2) (fun s => decide (h2 ≤ s.time))
      fuel2 [Simulator.new] [] ⊥ = some r2) :
    r1 ≤ r2 := by
  have htime0 : Simulator.new.time = 0 := rfl
  have hadm1 : ∀ n, NFReach (Simulator.successors bp)
      (fun s => decide (h1 ≤ s.time)) Simulator.new n →
      ∀ t, NFReach (Simulator.successors bp) (fun s => decide (h1 ≤ s.time)) n t →
      decide (h1 ≤ t.time) = true →
      Simulator.score t ≤ n.best_possible_score h1 :=
    fun n _ t hnt hft => day19_adm bp h1 n t hnt (of_decide_eq_true hft)
  have hadm2 : ∀ n, NFReach (Simulator.successors bp)
      (fun s => decide (h2 ≤ s.time)) Simulator.new n →
      ∀ t, NFReach (Simulator.successors bp) (fun s => decide (h2 ≤ s.time)) n t →
      decide (h2 ≤ t.time) = true →
      Simulator.score t ≤ n.best_possible_score h2 :=
    fun n _ t hnt hft => day19_adm bp h2 n t hnt (of_decide_eq_true hft)
  obtain ⟨u1, hu1, hu1f, -⟩ := day19_wait_chain bp h1 h1 Simulator.new
    (NFReach.refl _) (by omega)
  obtain ⟨u2, hu2, hu2f, -⟩ := day19_wait_chain bp h2 h2 Simulator.new
    (NFReach.refl _) (by omega)
  have g1 := dfsAux_isGreatest (Simulator.successors bp) Simulator.score
    (fun s => s.best_possible_score h1) (fun s => decide (h1 ≤ s.time))
    Simulator.new fuel1 r1 hrun1 hadm1 ⟨u1, hu1, hu1f⟩
  have g2 := dfsAux_isGreatest (Simulator.successors bp) Simulator.score
    (fun s => s.best_possible_score h2) (fun s => decide (h2 ≤ s.time))
    Simulator.new fuel2 r2 hrun2 hadm2 ⟨u2, hu2, hu2f⟩
  obtain ⟨⟨t, ht, hft, hsc⟩, -⟩ := g1
  have ht2 : NFReach (Simulator.successors bp) (fun s => decide (h2 ≤ s.time))
      Simulator.new t := by
    refine ht.mono_final ?_
    intro x hx
    exact decide_eq_true (le_trans hh (of_decide_eq_true hx))
  obtain ⟨t', h1', h2', h3'⟩ := day19_wait_chain bp h2 h2 t ht2 (by omega)
  have hle2 : Simulator.score t' ≤ r2 := g2.2 ⟨t', h1', h2', rfl⟩
  rw [← hsc]
  exact le_trans h3' hle2

/-- Witness for C6 on `day19WitnessBp`: horizons 2 and 3 give best geode
counts 0 and 1. -/
theorem score_blueprints_horizon_monotone_witness : (0 : ℕ) ≤ 1 :=
  score_blueprints_horizon_monotone day19WitnessBp 2 3 50 50 0 1 (by decide)
    (by decide) (by decide)

/-- A robot whose cost list repeats the same resource twice. -/
def day19DupRobot : Robot := ⟨[(Resource.Ore, 3), (Resource.Ore, 3)], Resource.Geode⟩

/-- A state storing 3 ore with the initial production of 1 ore per tick. -/
def day19DupSim : Simulator := ⟨0, ⟨3, 0, 0, 0⟩, ⟨1, 0, 0, 0⟩⟩

/-- **C10, counterexample.** For a robot whose cost list names the same
resource twice (accepted by the blueprint parser), the affordability guard of
`next_with_built_robot` checks each entry against the untouched storage, so
the build succeeds (`Some`), yet the second `remove_resource` call subtracts
3 from a stored quantity of 1: a `u64` underflow. -/
theorem next_with_built_robot_underflow_cex :
    (Simulator.next_with_built_robot day19DupSim day19DupRobot).isSome = true ∧
    removeAllOk (Simulator.next day19DupSim).storage day19DupRobot.costs = false := by
  decide

theorem resource_remove_ne (st : Storage) (r r' : Resource) (c : ℕ)
    (hne : r ≠ r') :
    (st.remove_resource r' c).resource r = st.resource r := by
  cases r <;> cases r' <;> first
    | exact absurd rfl hne
    | simp [Storage.remove_resource, Storage.resource]

theorem resource_le_add (st p : Storage) (r : Resource) :
    st.resource r ≤ (st.add p).resource r := by
  cases r <;> simp [Storage.add, Storage.resource]

/-- When the cost list names pairwise distinct resources and each entry is
dominated pointwise by `base`, which is in turn dominated by the stored
quantities, every subtraction of the run stays in bounds. -/
theorem removeAllOk_of_nodup :
    ∀ (costs : List (Resource × ℕ)) (st : Storage) (base : Resource → ℕ),
      (costs.map Prod.fst).Nodup →
      (∀ rc ∈ costs, rc.2 ≤ base rc.1) →
      (∀ rc ∈ costs, base rc.1 ≤ st.resource rc.1) →
      removeAllOk st costs = true := by
  intro costs
  induction costs with
  | nil => intro st base _ _ _; rfl
  | cons rc rest ih =>
    intro st base hnd hle hres
    simp only [removeAllOk, Bool.and_eq_true]
    obtain ⟨hnotmem, hndtail⟩ := List.nodup_cons.mp hnd
    constructor
    · exact decide_eq_true
        (le_trans (hle rc (List.mem_cons_self _ _)) (hres rc (List.mem_cons_self _ _)))
    · refine ih (st.remove_resource rc.1 rc.2) base hndtail
        (fun x hx => hle x (List.mem_cons_of_mem _ hx)) ?_
      intro x hx
      have hne : x.1 ≠ rc.1 := by
        intro he
        exact hnotmem (he ▸ List.mem_map_of_mem Prod.fst hx)
      rw [resource_remove_ne _ _ _ _ hne]
      exact hres x (List.mem_cons_of_mem _ hx)

/-- **C10 (amended).** `next_with_built_robot` returns `Some` exactly when
every cost entry is affordable from the current storage (so it returns
`None` for an unaffordable robot), and — provided the robot's cost entries
name pairwise distinct resources — every `remove_resource` call of a
successful build subtracts an amount no greater than the quantity stored at
the moment of the call, so the unsigned (`u64`) subtraction never
underflows. -/
theorem next_with_built_robot_safe (s : Simulator) (robot : Robot) :
    ((Simulator.next_with_built_robot s robot).isSome = true ↔
      ∀ rc ∈ robot.costs, rc.2 ≤ s.storage.resource rc.1) ∧
    ((robot.costs.map Prod.fst).Nodup →
      (Simulator.next_with_built_robot s robot).isSome = true →
      removeAllOk (Simulator.next s).storage robot.costs = true) := by
  have hiff : (Simulator.next_with_built_robot s robot).isSome = true ↔
      ∀ rc ∈ robot.costs, rc.2 ≤ s.storage.resource rc.1 := by
    unfold Simulator.next_with_built_robot
    split
    · rename_i hg
      simp only [Option.isSome_some, true_iff]
      intro rc hrc
      exact of_decide_eq_true (List.all_eq_true.mp hg rc hrc)
    · rename_i hg
      simp only [Option.isSome_none, Bool.false_eq_true, false_iff]
      intro hall
      exact hg (List.all_eq_true.mpr fun rc hrc => decide_eq_true (hall rc hrc))
  refine ⟨hiff, fun hnodup hsome => ?_⟩
  refine removeAllOk_of_nodup robot.costs (Simulator.next s).storage
    (fun r => s.storage.resource r) hnodup (hiff.mp hsome) ?_
  intro rc _
  exact resource_le_add s.storage s.production rc.1

/-- A robot with a single cost entry, used by the C10 witness. -/
def day19SafeRobot : Robot := ⟨[(Resource.Ore, 1)], Resource.Geode⟩

/-- Witness for C10 (amended) at a concrete affordable build with distinct
cost resources, discharging the distinctness and success hypotheses of the
underflow clause there. -/
theorem next_with_built_robot_safe_witness :
    ((Simulator.next_with_built_robot (Simulator.next Simulator.new)
        day19SafeRobot).isSome = true ↔
      ∀ rc ∈ day19SafeRobot.costs,
        rc.2 ≤ (Simulator.next Simulator.new).storage.resource rc.1) ∧
    removeAllOk (Simulator.next (Simulator.next Simulator.new)).storage
      day19SafeRobot.costs = true :=
  ⟨(next_with_built_robot_safe (Simulator.next Simulator.new) day19SafeRobot).1,
   (next_with_built_robot_safe (Simulator.next Simulator.new) day19SafeRobot).2
     (by decide) (by decide)⟩

end Day19

/-!
Embedding of the valve-opening state spaces of `src/day16.rs`.
-/

namespace Day16

/-- `Valve` (src/day16.rs lines 342-346). -/
structure Valve where
  name : String
  flow_rate : ℕ
deriving DecidableEq

/-- `Graph` (lines 216-222).  The `HashMap` of edges is modelled as a
function from node id to neighbour list (`Graph::neighbors` unwraps the
lookup); `all_valves_open` is the field the parser sets to the sum of all
flow rates. -/
structure Graph where
  start : ℕ
  nodes : List Valve
  edges : ℕ → List ℕ
  all_valves_open : ℕ

/-- `Graph::flow_rate` (lines 239-241); an out-of-range id (which panics in
the source) is modelled as flow 0. -/
def Graph.flow_rate (g : Graph) (node : ℕ) : ℕ :=
  (g.nodes.getD node ⟨"", 0⟩).flow_rate

/-- `Graph::neighbors` (lines 243-245). -/
def Graph.neighbors (g : Graph) (node : ℕ) : List ℕ :=
  g.edges node

/-- `PressureTracker` (lines 198-202): the `BTreeSet` of open valve ids is a
`Finset ℕ`. -/
structure PressureTracker where
  open_valves : Finset ℕ
deriving DecidableEq

/-- `PressureTracker::can_open_valve` (lines 204-206). -/
def PressureTracker.can_open_valve (p : PressureTracker) (node : ℕ) (g : Graph) :
    Bool :=
  decide (0 < g.flow_rate node) && decide (node ∉ p.open_valves)

/-- `PressureTracker::open_valve` (lines 208-210):
`flow_rate(node) > 0 && open_valves.insert(node)`.  The short-circuiting
`&&` inserts only when the flow is positive; the returned flag says whether
the valve was newly opened.  Modelled as the flag paired with the updated
tracker. -/
def PressureTracker.open_valve (p : PressureTracker) (node : ℕ) (g : Graph) :
    Bool × PressureTracker :=
  if 0 < g.flow_rate node then
    (decide (node ∉ p.open_valves), ⟨insert node p.open_valves⟩)
  else
    (false, p)

/-- `PressureTracker::pressure_released` (lines 211-213): total flow of the
currently open valves. -/
def PressureTracker.pressure_released (p : PressureTracker) (g : Graph) : ℕ :=
  p.open_valves.sum g.flow_rate

/-- `permutations` (lines 123-127): all pairs from two lists. -/
def permutations {A B : Type} (first : List A) (second : List B) : List (A × B) :=
  first.flatMap (fun a => second.map (fun b => (a, b)))

/-- `DuoSearchNode` (lines 11-17). -/
structure DuoSearchNode where
  me : ℕ
  elephant : ℕ
  time : ℕ
  pressure : PressureTracker
deriving DecidableEq

/-- `DuoSearchNode::new` (lines 20-26). -/
def DuoSearchNode.new (node : ℕ) : DuoSearchNode := ⟨node, node, 0, ⟨∅⟩⟩

/-- `DuoSearchNode::score` (lines 118-120). -/
def DuoSearchNode.score (s : DuoSearchNode) (g : Graph) : ℕ :=
  s.pressure.pressure_released g

/-- `DuoSearchNode::cost` (lines 114-116). -/
def DuoSearchNode.cost (s : DuoSearchNode) (g : Graph) : ℕ :=
  g.all_valves_open - s.score g

/-- `DuoSearchNode::successors` (lines 28-112): when all valves are open,
wait; otherwise both agents move, one moves while the other opens its
current valve, or both open (distinct) current valves.  Each successor is
paired with the cost of the popped node, `all_valves_open - released rate`. -/
def DuoSearchNode.successors (s : DuoSearchNode) (g : Graph) :
    List (DuoSearchNode × ℕ) :=
  let time := s.time + 1
  let current_cost := s.cost g
  if s.cost g = 0 then
    [(⟨s.me, s.elephant, time, s.pressure⟩, current_cost)]
  else
    let my_moves := g.neighbors s.me
    let elephant_moves := g.neighbors s.elephant
    let both_move := (permutations my_moves elephant_moves).map
      (fun q => (⟨q.1, q.2, time, s.pressure⟩, current_cost))
    let i_open := elephant_moves.filterMap (fun e =>
      let r := s.pressure.open_valve s.me g
      if r.1 then some (⟨s.me, e, time, r.2⟩, current_cost) else none)
    let elephant_opens := my_moves.filterMap (fun m =>
      let r := s.pressure.open_valve s.elephant g
      if r.1 then some (⟨m, s.elephant, time, r.2⟩, current_cost) else none)
    let both_open :=
      if s.me ≠ s.elephant ∧ s.pressure.can_open_valve s.me g = true ∧
          s.pressure.can_open_valve s.elephant g = true then
        [(⟨s.me, s.elephant, time,
            ((s.pressure.open_valve s.me g).2.open_valve s.elephant g).2⟩,
          current_cost)]
      else []
    both_move ++ i_open ++ elephant_opens ++ both_open

/-- `SearchNode` (lines 129-134). -/
structure SearchNode where
  node : ℕ
  time : ℕ
  pressure : PressureTracker
deriving DecidableEq

/-- `SearchNode::new` (lines 136-142). -/
def SearchNode.new (node : ℕ) : SearchNode := ⟨node, 0, ⟨∅⟩⟩

/-- `SearchNode::score` (lines 193-195). -/
def SearchNode.score (s : SearchNode) (g : Graph) : ℕ :=
  s.pressure.pressure_released g

/-- `SearchNode::cost` (lines 189-191). -/
def SearchNode.cost (s : SearchNode) (g : Graph) : ℕ :=
  g.all_valves_open - s.score g

/-- `SearchNode::successors` (lines 144-187). -/
def SearchNode.successors (s : SearchNode) (g : Graph) : List (SearchNode × ℕ) :=
  let time := s.time + 1
  let current_cost := s.cost g
  if current_cost = 0 then
    [(⟨s.node, time, s.pressure⟩, current_cost)]
  else
    let moves := (g.neighbors s.node).map
      (fun x => (⟨x, time, s.pressure⟩, current_cost))
    let opens :=
      let r := s.pressure.open_valve s.node g
      if r.1 then [(⟨s.node, time, r.2⟩, current_cost)] else []
    moves ++ opens

/-- Model of the `pathfinding::dijkstra` call of
`Graph::duo_optimal_pressure_release` (lines 265-280): the minimum total
edge cost over successor paths from a node to the first node satisfying
`time ≥ max_time`.  Every successor increments `time` by exactly one
(`duo_successors_facts` below), so on this time-levelled graph every
goal-reaching path from a node at time `τ` has exactly `max_time − τ` steps
and the minimum is computed by depth recursion with that much fuel.
`none` models the `.expect("No goal found")` panic. -/
def duoMinCost (g : Graph) (max_time : ℕ) : ℕ → DuoSearchNode → Option ℕ
  | 0, s => if max_time ≤ s.time then some 0 else none
  | fuel + 1, s =>
    if max_time ≤ s.time then some 0
    else ((s.successors g).filterMap
      (fun p => (duoMinCost g max_time fuel p.1).map (fun c => p.2 + c))).min?

/-- The maximum cumulative released pressure over all dual-agent schedules
reaching the horizon: the sum over the nodes of a successor path, the goal
node excluded, of the per-tick released rate, maximised over paths.  (This
is the quantity the source's `recalc_score` assertion recomputes from the
returned path.) -/
def duoMaxRelease (g : Graph) (max_time : ℕ) : ℕ → DuoSearchNode → Option ℕ
  | 0, s => if max_time ≤ s.time then some 0 else none
  | fuel + 1, s =>
    if max_time ≤ s.time then some 0
    else ((s.successors g).filterMap
      (fun p => (duoMaxRelease g max_time fuel p.1).map
        (fun m => s.score g + m))).max?

/-- `Graph::duo_optimal_pressure_release` (lines 265-280): run the dijkstra
search from `DuoSearchNode::new(start)` and return
`max_time * all_valves_open − cost`. -/
def Graph.duo_optimal_pressure_release (g : Graph) (max_time : ℕ) : Option ℕ :=
  (duoMinCost g max_time max_time (DuoSearchNode.new g.start)).map
    (fun cost => max_time * g.all_valves_open - cost)

/-- Modelled from the spec: the bound function the specification describes
for the dual-agent state space — "assume every not-yet-opened location's
reward activates on the very next tick" — which does not occur anywhere in
`src/day16.rs`: the current released rate plus the flows of all
not-yet-opened valves. -/
def specDuoBound (g : Graph) (s : DuoSearchNode) : ℕ :=
  s.score g + (((List.range g.nodes.length).filter
    (fun v => decide (v ∉ s.pressure.open_valves))).map g.flow_rate).sum

/-- Every dual-agent successor advances time by exactly one tick and carries
the parent's cost `all_valves_open - released rate`. -/
theorem duo_successors_facts (g : Graph) (s : DuoSearchNode)
    (p : DuoSearchNode × ℕ) (hp : p ∈ s.successors g) :
    p.1.time = s.time + 1 ∧ p.2 = s.cost g := by
  unfold DuoSearchNode.successors at hp
  split at hp
  · simp only [List.mem_singleton] at hp
    subst hp
    exact ⟨rfl, rfl⟩
  · simp only [List.mem_append] at hp
    rcases hp with ((hp | hp) | hp) | hp
    · simp only [List.mem_map] at hp
      obtain ⟨q, _, rfl⟩ := hp
      exact ⟨rfl, rfl⟩
    · simp only [List.mem_filterMap] at hp
      obtain ⟨e, _, hsome⟩ := hp
      split at hsome
      · injection hsome with hsome
        subst hsome
        exact ⟨rfl, rfl⟩
      · cases hsome
    · simp only [List.mem_filterMap] at hp
      obtain ⟨m, _, hsome⟩ := hp
      split at hsome
      · injection hsome with hsome
        subst hsome
        exact ⟨rfl, rfl⟩
      · cases hsome
    · split at hp
      · simp only [List.mem_singleton] at hp
        subst hp
        exact ⟨rfl, rfl⟩
      · cases hp

/-- Every single-agent successor advances time by exactly one tick. -/
theorem single_successors_facts (g : Graph) (s : SearchNode)
    (p : SearchNode × ℕ) (hp : p ∈ s.successors g) :
    p.1.time = s.time + 1 ∧ p.2 = s.cost g := by
  unfold SearchNode.successors at hp
  dsimp only at hp
  split at hp
  · simp only [List.mem_singleton] at hp
    subst hp
    exact ⟨rfl, rfl⟩
  · simp only [List.mem_append] at hp
    rcases hp with hp | hp
    · simp only [List.mem_map] at hp
      obtain ⟨x, _, rfl⟩ := hp
      exact ⟨rfl, rfl⟩
    · split at hp
      · simp only [List.mem_singleton] at hp
        subst hp
        exact ⟨rfl, rfl⟩
      · cases hp

theorem foldl_min_sub (K : ℕ) : ∀ (l : List ℕ) (a : ℕ), a ≤ K → (∀ y ∈ l, y ≤ K) →
    (l.map (fun y => K - y)).foldl min (K - a) = K - l.foldl max a := by
  intro l
  induction l with
  | nil => intro a _ _; rfl
  | cons b l ih =>
    intro a ha hl
    simp only [List.map_cons, List.foldl_cons]
    have hb : b ≤ K := hl b (List.mem_cons_self _ _)
    have hmin : min (K - a) (K - b) = K - max a b := by omega
    rw [hmin]
    exact ih (max a b) (by omega) (fun y hy => hl y (List.mem_cons_of_mem _ hy))

theorem min?_map_sub (K : ℕ) (l : List ℕ) (hl : ∀ y ∈ l, y ≤ K) :
    (l.map (fun y => K - y)).min? = l.max?.map (fun y => K - y) := by
  cases l with
  | nil => rfl
  | cons a l =>
    have h1 : (a :: l).max? = some (l.foldl max a) := rfl
    have h2 : ((a :: l).map (fun y => K - y)).min?
        = some ((l.map (fun y => K - y)).foldl min (K - a)) := rfl
    rw [h1, h2, foldl_min_sub K l a (hl a (List.mem_cons_self _ _))
      (fun y hy => hl y (List.mem_cons_of_mem _ hy))]
    rfl

theorem filterMap_map_sub {α : Type} (K : ℕ) (l : List α) (f h : α → Option ℕ)
    (hpt : ∀ a ∈ l, f a = (h a).map (fun y => K - y)) :
    l.filterMap f = (l.filterMap h).map (fun y => K - y) := by
  induction l with
  | nil => rfl
  | cons a l ih =>
    have hfa := hpt a (List.mem_cons_self _ _)
    have ihl := ih (fun x hx => hpt x (List.mem_cons_of_mem _ hx))
    cases hha : h a with
    | none =>
      have hfa' : f a = none := by rw [hfa, hha]; rfl
      simp only [List.filterMap_cons, hfa', hha]
      exact ihl
    | some y =>
      have hfa' : f a = some (K - y) := by rw [hfa, hha]; rfl
      simp only [List.filterMap_cons, hfa', hha, List.map_cons]
      rw [ihl]

/-- Duality between the dijkstra cost recursion and the cumulative-release
recursion: whenever every finite set of valves has total flow at most
`all_valves_open`, the minimum cost is `(remaining ticks) * all_valves_open`
minus the maximum cumulative release, and the latter is bounded by
`(remaining ticks) * all_valves_open`. -/
theorem duoMinCost_duality (g : Graph) (T : ℕ)
    (hwf : ∀ S : Finset ℕ, S.sum g.flow_rate ≤ g.all_valves_open) :
    ∀ fuel (s : DuoSearchNode),
      (∀ m, duoMaxRelease g T fuel s = some m →
        m ≤ (T - s.time) * g.all_valves_open) ∧
      duoMinCost g T fuel s
        = (duoMaxRelease g T fuel s).map
            (fun m => (T - s.time) * g.all_valves_open - m) := by
  intro fuel
  induction fuel with
  | zero =>
    intro s
    constructor
    · intro m hm
      unfold duoMaxRelease at hm
      split at hm
      · injection hm with hm
        omega
      · cases hm
    · unfold duoMinCost duoMaxRelease
      split
      · rename_i hT
        rw [Nat.sub_eq_zero_of_le hT]
        simp
      · rfl
  | succ fuel ih =>
    intro s
    by_cases hT : T ≤ s.time
    · constructor
      · intro m hm
        unfold duoMaxRelease at hm
        rw [if_pos hT] at hm
        injection hm with hm
        omega
      · unfold duoMinCost duoMaxRelease
        rw [if_pos hT, if_pos hT, Nat.sub_eq_zero_of_le hT]
        simp
    · have hsc : s.score g ≤ g.all_valves_open := hwf s.pressure.open_valves
      have hptK : ∀ y ∈ (s.successors g).filterMap
          (fun p => (duoMaxRelease g T fuel p.1).map (fun m => s.score g + m)),
          y ≤ (T - s.time) * g.all_valves_open := by
        intro y hy
        simp only [List.mem_filterMap] at hy
        obtain ⟨p, hp, hpm⟩ := hy
        cases hM : duoMaxRelease g T fuel p.1 with
        | none => rw [hM] at hpm; cases hpm
        | some m' =>
          rw [hM] at hpm
          injection hpm with hpm
          obtain ⟨hbd, -⟩ := ih p.1
          have hm' := hbd m' hM
          obtain ⟨hptime, -⟩ := duo_successors_facts g s p hp
          rw [hptime] at hm'
          subst hpm
          show s.score g + m' ≤ (T - s.time) * g.all_valves_open
          have hexp : T - s.time = (T - (s.time + 1)) + 1 := by omega
          rw [hexp, Nat.succ_mul]
          generalize (T - (s.time + 1)) * g.all_valves_open = MA at hm' ⊢
          omega
      have hpt : ∀ p ∈ s.successors g,
          ((duoMinCost g T fuel p.1).map (fun c => p.2 + c))
            = (((duoMaxRelease g T fuel p.1).map (fun m => s.score g + m)).map
                (fun y => (T - s.time) * g.all_valves_open - y)) := by
        intro p hp
        obtain ⟨hptime, hpcost⟩ := duo_successors_facts g s p hp
        obtain ⟨hbd, heq⟩ := ih p.1
        rw [heq]
        cases hM : duoMaxRelease g T fuel p.1 with
        | none => rfl
        | some m =>
          have hm : m ≤ (T - (s.time + 1)) * g.all_valves_open := by
            have := hbd m hM
            rwa [hptime] at this
          show some (p.2 + ((T - p.1.time) * g.all_valves_open - m))
            = some ((T - s.time) * g.all_valves_open - (s.score g + m))
          congr 1
          rw [hpcost, hptime]
          unfold DuoSearchNode.cost
          have hexp : T - s.time = (T - (s.time + 1)) + 1 := by omega
          rw [hexp, Nat.succ_mul]
          generalize (T - (s.time + 1)) * g.all_valves_open = MA at hm ⊢
          omega
      constructor
      · intro m hm
        unfold duoMaxRelease at hm
        rw [if_neg hT] at hm
        exact hptK m (List.max?_mem (fun a b => max_choice a b) hm)
      · unfold duoMinCost duoMaxRelease
        rw [if_neg hT, if_neg hT]
        rw [filterMap_map_sub ((T - s.time) * g.all_valves_open) (s.successors g)
          (fun p => (duoMinCost g T fuel p.1).map (fun c => p.2 + c))
          (fun p => (duoMaxRelease g T fuel p.1).map (fun m => s.score g + m)) hpt]
        exact min?_map_sub _ _ hptK

/-- The two-valve graph used by the C2 counterexample and several witnesses:
valve 0 ("AA", flow 0) and valve 1 ("BB", flow 5), connected both ways, with
`all_valves_open = 5` as the parser would set it. -/
def exGraph : Graph :=
  ⟨0, [⟨"AA", 0⟩, ⟨"BB", 5⟩],
   fun n => if n = 0 then [1] else if n = 1 then [0] else [], 5⟩

theorem exGraph_flow (v : ℕ) : exGraph.flow_rate v = if v = 1 then 5 else 0 := by
  match v with
  | 0 => rfl
  | 1 => rfl
  | n + 2 => simp [exGraph, Graph.flow_rate]

theorem exGraph_hwf (S : Finset ℕ) :
    S.sum exGraph.flow_rate ≤ exGraph.all_valves_open := by
  have h1 : S.sum exGraph.flow_rate = S.sum (fun v => if v = 1 then 5 else 0) :=
    Finset.sum_congr rfl (fun v _ => exGraph_flow v)
  rw [h1, Finset.sum_ite_eq' S 1 (fun _ => 5)]
  split <;> norm_num [exGraph]

/-- **C2, counterexample.** On the two-valve graph with horizon 4 the code's
`duo_optimal_pressure_release` returns 10 — the cumulative pressure released
over the four ticks — while the computation the claim describes (the generic
`dfs` over the same dual-agent state space, with the bound the spec words
describe, returning the best terminal score) returns 5, the best released
*rate* at the horizon.  The function does not compute its answer by invoking
the generic `dfs`: it calls the `pathfinding` crate's `dijkstra` and supplies
no bound function. -/
theorem duo_optimal_not_via_dfs_cex :
    exGraph.duo_optimal_pressure_release 4 = some 10 ∧
    dfsAux (fun s => (DuoSearchNode.successors s exGraph).map Prod.fst)
      (fun s => s.score exGraph) (specDuoBound exGraph)
      (fun s => decide (4 ≤ s.time)) 200 [DuoSearchNode.new exGraph.start] [] ⊥
      = some 5 ∧
    (10 : ℕ) ≠ 5 := by
  refine ⟨by decide, by decide, by decide⟩

/-- **C2 (amended).** `duo_optimal_pressure_release` computes its answer by
invoking the `pathfinding` crate's dijkstra shortest-path search — not the
generic `dfs`, and with no bound function — over the dual-agent state space,
costing each step `all_valves_open` minus the released rate of the expanded
node, and returns `max_time * all_valves_open` minus the minimal total cost.
Whenever every finite set of valves has total flow at most
`all_valves_open` (which the parser guarantees), this equals the maximum
cumulative released pressure over all dual-agent schedules reaching the
horizon. -/
theorem duo_optimal_pressure_release_eq_max_release (g : Graph) (max_time : ℕ)
    (hwf : ∀ S : Finset ℕ, S.sum g.flow_rate ≤ g.all_valves_open) :
    g.duo_optimal_pressure_release max_time
      = duoMaxRelease g max_time max_time (DuoSearchNode.new g.start) := by
  obtain ⟨hbd, heq⟩ :=
    duoMinCost_duality g max_time hwf max_time (DuoSearchNode.new g.start)
  unfold Graph.duo_optimal_pressure_release
  rw [heq]
  cases hM : duoMaxRelease g max_time max_time (DuoSearchNode.new g.start) with
  | none => rfl
  | some m =>
    have hm := hbd m hM
    have ht0 : (DuoSearchNode.new g.start).time = 0 := rfl
    rw [ht0, Nat.sub_zero] at hm
    simp only [Option.map_some']
    congr 1
    rw [ht0, Nat.sub_zero]
    generalize max_time * g.all_valves_open = TA at hm ⊢
    omega

/-- Witness for C2 (amended) on the two-valve graph with horizon 4 (both
sides evaluate to `some 10`). -/
theorem duo_optimal_pressure_release_eq_max_release_witness :
    exGraph.duo_optimal_pressure_release 4
      = duoMaxRelease exGraph 4 4 (DuoSearchNode.new exGraph.start) :=
  duo_optimal_pressure_release_eq_max_release exGraph 4 exGraph_hwf

end Day16

/-- **C8.** Every successor generated by the client state spaces has a time
field exactly one greater than its parent's: the geode `Simulator`
successors, the dual-agent `DuoSearchNode` successors, and the single-agent
`SearchNode` successors all advance time by exactly 1. -/
theorem successors_increment_time :
    (∀ (bp : Day19.Blueprint) (s s' : Day19.Simulator),
      s' ∈ Day19.Simulator.successors bp s → s'.time = s.time + 1) ∧
    (∀ (g : Day16.Graph) (s : Day16.DuoSearchNode) (p : Day16.DuoSearchNode × ℕ),
      p ∈ s.successors g → p.1.time = s.time + 1) ∧
    (∀ (g : Day16.Graph) (s : Day16.SearchNode) (p : Day16.SearchNode × ℕ),
      p ∈ s.successors g → p.1.time = s.time + 1) :=
  ⟨Day19.successors_time,
   fun g s p hp => (Day16.duo_successors_facts g s p hp).1,
   fun g s p hp => (Day16.single_successors_facts g s p hp).1⟩

/-- Witness for C8: one concrete successor of each of the three state
spaces. -/
theorem successors_increment_time_witness :
    (Day19.Simulator.next Day19.Simulator.new).time
        = Day19.Simulator.new.time + 1 ∧
    (Day16.DuoSearchNode.mk 1 1 1 ⟨∅⟩).time
        = (Day16.DuoSearchNode.new Day16.exGraph.start).time + 1 ∧
    (Day16.SearchNode.mk 1 1 ⟨∅⟩).time
        = (Day16.SearchNode.new Day16.exGraph.start).time + 1 :=
  ⟨successors_increment_time.1 Day19.day19WitnessBp _ _ (List.mem_cons_self _ _),
   successors_increment_time.2.1 Day16.exGraph _ (⟨⟨1, 1, 1, ⟨∅⟩⟩, 5⟩) (by decide),
   successors_increment_time.2.2 Day16.exGraph _ (⟨⟨1, 1, ⟨∅⟩⟩, 5⟩) (by decide)⟩
